import Mathlib

/-!
# Verification of the competitor-analysis pipeline

Shallow embedding, in Lean 4, of the core pipeline of the
`AI-competitor-analysis` repository (backend/agent/competitor_agent.py,
backend/agent/feature_extractor.py, backend/api/main.py), together with
theorems settling the specification claims about it.

Modelling conventions:
* Python strings are Lean `String`s; character-level operations
  (`str.strip`, `str.lower`, `str.find`, slicing, `re` substitutions)
  are modelled over `String.data` (`List Char`).
* Python dict records for competitors are modelled by `Candidate β`:
  the `score`/`reason` fields of a competitor dict are `Option`s so that a
  dict *without* such a key carries `none` (as `dict.get("score")` would
  give `None`).
* `list(set(xs))` and `list(dict.fromkeys(xs))` are modelled by
  `dedupFirst`, a duplicate-elimination keeping the first occurrence
  (Python's `set` iteration order is unspecified; every claim proved below
  depends only on the underlying set).
* External calls (search provider, web fetch, LLM completion) are oracles:
  a value of type `Except Unit τ`, where `.error ()` models the call
  raising an exception.  Thread pools (`ThreadPoolExecutor`/`as_completed`)
  are serialized in submission order; the claims proved below are
  insensitive to worker completion order.

The file is organised as definitions first, then theorems.
-/

set_option autoImplicit false
set_option linter.unusedSectionVars false

/-! # Part A: definitions -/

/-! ## Python string primitives -/

/-- Whitespace as stripped by Python's `str.strip()` (ASCII part). -/
def pyIsSpace (c : Char) : Bool :=
  c = ' ' || c = '\t' || c = '\n' || c = '\r' || c = '\x0b' || c = '\x0c'

/-- `str.strip()` on the character list: drop leading and trailing whitespace. -/
def stripChars (l : List Char) : List Char :=
  ((l.dropWhile pyIsSpace).reverse.dropWhile pyIsSpace).reverse

/-- Python `str.strip()`. -/
def pyStrip (s : String) : String := ⟨stripChars s.data⟩

/-- Python `str.lower()` (character-wise; agrees with CPython on ASCII and CJK). -/
def pyLower (s : String) : String := ⟨s.data.map Char.toLower⟩

/-! ## First-occurrence deduplication

Models Python's `list(set(xs))` (order unspecified in CPython; we fix the
first-occurrence order, which also makes it an exact model of
`list(dict.fromkeys(xs))` used by the enrichment stage). -/

def dedupFirstAux {β : Type} [BEq β] (seen : List β) : List β → List β
  | [] => []
  | x :: xs =>
    if seen.contains x then dedupFirstAux seen xs
    else x :: dedupFirstAux (x :: seen) xs

def dedupFirst {β : Type} [BEq β] (l : List β) : List β := dedupFirstAux [] l

/-! ## Competitor records

A Python competitor dict.  `merge_and_deduplicate_competitors` reads only
`competitor.get("name", "")` and `competitor.get("features", [])`; a dict
without a `"score"`/`"reason"` key is modelled with `score = none` /
`reason = none`.  The feature element type is a parameter `β` because the
pipeline carries plain strings in the spec's data model but raw JSON values
straight out of the extractor. -/

structure Candidate (β : Type) where
  name : String
  features : List β
  score : Option Int
  reason : Option String
deriving DecidableEq

section MergeDefs

variable {β : Type} [BEq β]

/-- The Python dict `merged`, keyed by `name.lower()` (insertion-ordered). -/
abbrev MergeAcc (β : Type) := List (String × Candidate β)

/-- Assoc-list lookup, modelling `merged[name_lower]` access. -/
def lookupK (key : String) : MergeAcc β → Option (Candidate β)
  | [] => none
  | (k, e) :: rest => if k = key then some e else lookupK key rest

/-- Store a candidate under `key`: on collision the stored entry's feature
list becomes the set-union with the incoming features
(`set(existing).update(new)`); otherwise a fresh `{"name": nm,
"features": list(set(feats))}` entry is appended (Python dicts preserve
insertion order). -/
def mergeInto (key nm : String) (feats : List β) : MergeAcc β → MergeAcc β
  | [] => [(key, ⟨nm, dedupFirst feats, none, none⟩)]
  | (k, e) :: rest =>
    if k = key then (k, ⟨e.name, dedupFirst (e.features ++ feats), e.score, e.reason⟩) :: rest
    else (k, e) :: mergeInto key nm feats rest

/-- One iteration of the `for competitor in all_competitors` loop of
`merge_and_deduplicate_competitors` (competitor_agent.py:367-382). -/
def mergeStep (acc : MergeAcc β) (c : Candidate β) : MergeAcc β :=
  let nm := pyStrip c.name
  if nm = "" then acc
  else mergeInto (pyLower nm) nm c.features acc

/-- `CompetitorAnalysisAgent.merge_and_deduplicate_competitors`
(competitor_agent.py:362-386): fold the candidates into a dict keyed by
`name.strip().lower()`, then return `list(merged.values())`. -/
def merge_and_deduplicate_competitors (cs : List (Candidate β)) : List (Candidate β) :=
  (cs.foldl mergeStep []).map Prod.snd

/-- Keys of the accumulator dict. -/
def keysOf (acc : MergeAcc β) : List String := acc.map Prod.fst

/-- Invariant of every entry of the `merged` dict: the key is the lowercased
stored name, the stored name is stripped and non-empty, the feature list is
duplicate-free, and the entry has no `score`/`reason` key. -/
def EntryInv (p : String × Candidate β) : Prop :=
  pyLower p.2.name = p.1 ∧ pyStrip p.2.name = p.2.name ∧ p.2.name ≠ "" ∧
    p.2.features.Nodup ∧ p.2.score = none ∧ p.2.reason = none

/-- `FeatAt k f acc`: the dict entry under key `k` holds feature `f`. -/
def FeatAt (k : String) (f : β) (acc : MergeAcc β) : Prop :=
  ∃ e, lookupK k acc = some e ∧ f ∈ e.features

end MergeDefs

/-! ## Validator / filter (spec §4.5)

`validate_competitors` is invoked by the API layer
(src/backend/api/main.py:227-228, `min_score=6`) and the API's `Competitor`
response model declares `score`/`reason` fields, but the method itself is
not present in src/backend/agent/competitor_agent.py — only its caller and
record declarations are in the tree. -/

/-- The spec's canonical post-merge competitor: `{name, features, score, reason}`. -/
structure ScoredCompetitor where
  name : String
  features : List String
  score : Int
  reason : String
deriving DecidableEq

/-- "a comes no later than b" under descending score order. -/
def scoreDescBool (a b : ScoredCompetitor) : Bool := b.score ≤ a.score

/-- Modelled from the spec: `validate_competitors` is missing from src/ (only
its call site `validate_competitors(merged, ..., min_score=6)` in
src/backend/api/main.py is present); modelled from spec §4.5: keep
competitors with `score >= min_score`; if that eliminates everything, fall
back to the top 5 competitors by score (descending); the final output is
always sorted descending by score. -/
def validate_competitors (competitors : List ScoredCompetitor) (min_score : Int) :
    List ScoredCompetitor :=
  let kept := competitors.filter (fun c => min_score ≤ c.score)
  if kept.isEmpty then (competitors.mergeSort scoreDescBool).take 5
  else kept.mergeSort scoreDescBool

/-! ## Feature enrichment (feature_extractor.py)

`FeatureExtractor.enrich_competitors` (feature_extractor.py:238-325) fans
out one `extract_features_for_competitor` future per input competitor (the
preceding `search_competitors_parallel` phase catches its own errors and
only changes which search results the future sees).  We model the outcome
of each competitor's future by an oracle `Candidate String → Except Unit
(List String)`: `.ok new_features` for a future that completed (possibly
with zero new features, e.g. after an internally-caught search/LLM
failure), `.error ()` for a future that raised.  `as_completed` collection
is serialized in submission order; the claims proved about this stage are
order-insensitive. -/

/-- The body of the `for future in as_completed(...)` loop
(feature_extractor.py:296-315): on success rebuild the record as
`{"name": ..., "features": list(dict.fromkeys(old + new))}`; on an exception
append the input record unchanged. -/
def enrichOne (oracle : Candidate String → Except Unit (List String))
    (comp : Candidate String) : Candidate String :=
  match oracle comp with
  | .ok new_features => ⟨comp.name, dedupFirst (comp.features ++ new_features), none, none⟩
  | .error _ => comp

/-- `FeatureExtractor.enrich_competitors` (feature_extractor.py:238-325):
early-return on empty input; process every competitor; then append any
input competitor whose name was never processed (the supplement loop at
feature_extractor.py:317-321). -/
def enrich_competitors (oracle : Candidate String → Except Unit (List String))
    (competitors : List (Candidate String)) : List (Candidate String) :=
  if competitors.isEmpty then []
  else
    let enriched := competitors.map (enrichOne oracle)
    let processed_names := enriched.map Candidate.name
    enriched ++ competitors.filter (fun c => !(processed_names.contains c.name))

/-! ## JSON values and `json.loads`

A parsed Python JSON value.  Numbers keep their validated lexeme verbatim
(`Json.num "1.5"`): no claim below compares parsed numeric magnitudes.
Duplicate object keys follow Python `dict` semantics (first-insertion
position, last value wins). -/

inductive Json where
  | null
  | bool (b : Bool)
  | num (raw : String)
  | str (s : String)
  | arr (elems : List Json)
  | obj (fields : List (String × Json))

mutual

def Json.beq : Json → Json → Bool
  | .null, .null => true
  | .bool a, .bool b => a == b
  | .num a, .num b => a == b
  | .str a, .str b => a == b
  | .arr a, .arr b => Json.beqList a b
  | .obj a, .obj b => Json.beqFields a b
  | _, _ => false

def Json.beqList : List Json → List Json → Bool
  | [], [] => true
  | a :: as, b :: bs => Json.beq a b && Json.beqList as bs
  | _, _ => false

def Json.beqFields : List (String × Json) → List (String × Json) → Bool
  | [], [] => true
  | (ka, va) :: as, (kb, vb) :: bs => ka == kb && Json.beq va vb && Json.beqFields as bs
  | _, _ => false

end

instance : BEq Json := ⟨Json.beq⟩

/-- JSON structural whitespace accepted by `json.loads`. -/
def jsonWs (c : Char) : Bool := c = ' ' || c = '\t' || c = '\n' || c = '\r'

def skipWs (l : List Char) : List Char := l.dropWhile jsonWs

def hexVal (c : Char) : Option Nat :=
  if '0' ≤ c ∧ c ≤ '9' then some (c.toNat - '0'.toNat)
  else if 'a' ≤ c ∧ c ≤ 'f' then some (c.toNat - 'a'.toNat + 10)
  else if 'A' ≤ c ∧ c ≤ 'F' then some (c.toNat - 'A'.toNat + 10)
  else none

/-- JSON string body scanner (after the opening quote): decodes the standard
escapes, rejects raw control characters (CPython strict mode) and, as a
deliberate simplification, rejects `\uXXXX` surrogate code points (CPython
would keep lone surrogates; no claim exercises them). -/
def parseStringAux : Nat → List Char → List Char → Option (String × List Char)
  | 0, _, _ => none
  | _, _, [] => none
  | fuel+1, acc, c :: rest =>
    if c = '"' then some (⟨acc.reverse⟩, rest)
    else if c = '\\' then
      match rest with
      | [] => none
      | e :: rest2 =>
        if e = '"' then parseStringAux fuel ('"' :: acc) rest2
        else if e = '\\' then parseStringAux fuel ('\\' :: acc) rest2
        else if e = '/' then parseStringAux fuel ('/' :: acc) rest2
        else if e = 'b' then parseStringAux fuel ('\x08' :: acc) rest2
        else if e = 'f' then parseStringAux fuel ('\x0c' :: acc) rest2
        else if e = 'n' then parseStringAux fuel ('\n' :: acc) rest2
        else if e = 'r' then parseStringAux fuel ('\r' :: acc) rest2
        else if e = 't' then parseStringAux fuel ('\t' :: acc) rest2
        else if e = 'u' then
          match rest2 with
          | h1 :: h2 :: h3 :: h4 :: rest3 =>
            match hexVal h1, hexVal h2, hexVal h3, hexVal h4 with
            | some v1, some v2, some v3, some v4 =>
              let n := ((v1 * 16 + v2) * 16 + v3) * 16 + v4
              if 0xD800 ≤ n ∧ n ≤ 0xDFFF then none
              else parseStringAux fuel (Char.ofNat n :: acc) rest3
            | _, _, _, _ => none
          | _ => none
        else none
    else if c.toNat < 0x20 then none
    else parseStringAux fuel (c :: acc) rest

def parseFrac : List Char → Option (List Char × List Char)
  | '.' :: rest =>
    let ds := rest.takeWhile Char.isDigit
    if ds.isEmpty then none else some ('.' :: ds, rest.drop ds.length)
  | l => some ([], l)

def parseExp : List Char → Option (List Char × List Char)
  | [] => some ([], [])
  | c :: rest =>
    if c = 'e' || c = 'E' then
      let (sign, rest2) : List Char × List Char :=
        match rest with
        | '+' :: r => (['+'], r)
        | '-' :: r => (['-'], r)
        | r => ([], r)
      let ds := rest2.takeWhile Char.isDigit
      if ds.isEmpty then none else some (c :: (sign ++ ds), rest2.drop ds.length)
    else some ([], c :: rest)

/-- JSON number lexer: `-?(0|[1-9][0-9]*)(\.[0-9]+)?([eE][+-]?[0-9]+)?`. -/
def parseNumber (l : List Char) : Option (String × List Char) :=
  let (negPart, l1) : List Char × List Char :=
    match l with
    | '-' :: rest => (['-'], rest)
    | _ => ([], l)
  let intPart := l1.takeWhile Char.isDigit
  if intPart.isEmpty then none
  else if intPart.length > 1 && intPart.head? == some '0' then none
  else
    let l2 := l1.drop intPart.length
    match parseFrac l2 with
    | none => none
    | some (fracPart, l3) =>
      match parseExp l3 with
      | none => none
      | some (expPart, l4) =>
        some (⟨negPart ++ intPart ++ fracPart ++ expPart⟩, l4)

/-- Python-dict insertion: replace the value of an existing key in place,
else append at the end. -/
def dictInsert (k : String) (v : Json) : List (String × Json) → List (String × Json)
  | [] => [(k, v)]
  | (k', v') :: rest => if k' = k then (k', v) :: rest else (k', v') :: dictInsert k v rest

mutual

/-- Recursive-descent JSON value parser (the `fuel` is only a recursion
bound: every mutual call consumes at least one input character first, so
`input length + 1` fuel can never be exhausted before the input). -/
def parseValue : Nat → List Char → Option (Json × List Char)
  | 0, _ => none
  | fuel+1, l =>
    match l with
    | [] => none
    | '"' :: rest =>
      (parseStringAux (rest.length + 1) [] rest).map (fun p => (Json.str p.1, p.2))
    | '\x7b' :: rest =>
      let rest1 := skipWs rest
      (match rest1 with
       | '\x7d' :: r2 => some (Json.obj [], r2)
       | _ =>
         match parseMember fuel rest1 with
         | none => none
         | some (kv, r) =>
           match parseObjRest fuel (skipWs r) [kv] with
           | none => none
           | some (kvs, r2) =>
             some (Json.obj (kvs.foldl (fun acc p => dictInsert p.1 p.2 acc) []), r2))
    | '[' :: rest =>
      let rest1 := skipWs rest
      (match rest1 with
       | ']' :: r2 => some (Json.arr [], r2)
       | _ =>
         match parseValue fuel rest1 with
         | none => none
         | some (v, r) =>
           match parseArrayRest fuel (skipWs r) [v] with
           | none => none
           | some (vs, r2) => some (Json.arr vs, r2))
    | _ =>
      if "true".data.isPrefixOf l then some (Json.bool true, l.drop 4)
      else if "false".data.isPrefixOf l then some (Json.bool false, l.drop 5)
      else if "null".data.isPrefixOf l then some (Json.null, l.drop 4)
      else if "NaN".data.isPrefixOf l then some (Json.num "NaN", l.drop 3)
      else if "Infinity".data.isPrefixOf l then some (Json.num "Infinity", l.drop 8)
      else if "-Infinity".data.isPrefixOf l then some (Json.num "-Infinity", l.drop 9)
      else (parseNumber l).map (fun p => (Json.num p.1, p.2))

/-- One `"key": value` member (whitespace before the key already skipped). -/
def parseMember : Nat → List Char → Option ((String × Json) × List Char)
  | 0, _ => none
  | fuel+1, l =>
    match l with
    | '"' :: rest =>
      (match parseStringAux (rest.length + 1) [] rest with
       | none => none
       | some (k, r) =>
         match skipWs r with
         | ':' :: r2 =>
           (match parseValue fuel (skipWs r2) with
            | none => none
            | some (v, r3) => some ((k, v), r3))
         | _ => none)
    | _ => none

/-- Continuation of an object after one parsed member: `,` member … or `}`. -/
def parseObjRest : Nat → List Char → List (String × Json) →
    Option (List (String × Json) × List Char)
  | 0, _, _ => none
  | fuel+1, l, acc =>
    match l with
    | '\x7d' :: rest => some (acc.reverse, rest)
    | ',' :: rest =>
      (match parseMember fuel (skipWs rest) with
       | none => none
       | some (kv, r) => parseObjRest fuel (skipWs r) (kv :: acc))
    | _ => none

/-- Continuation of an array after one parsed value: `,` value … or `]`. -/
def parseArrayRest : Nat → List Char → List Json → Option (List Json × List Char)
  | 0, _, _ => none
  | fuel+1, l, acc =>
    match l with
    | ']' :: rest => some (acc.reverse, rest)
    | ',' :: rest =>
      (match parseValue fuel (skipWs rest) with
       | none => none
       | some (v, r) => parseArrayRest fuel (skipWs r) (v :: acc))
    | _ => none

end

/-- `json.loads`: a single JSON document, optionally surrounded by
whitespace; trailing garbage ("Extra data") is a failure. -/
def jsonLoads (l : List Char) : Option Json :=
  let l1 := skipWs l
  match parseValue (l1.length + 1) l1 with
  | none => none
  | some (v, rest) => if (skipWs rest).isEmpty then some v else none

/-! ## Python string search, slicing and truthiness -/

def findSubAux (pat : List Char) : List Char → Nat → Option Nat
  | [], i => if pat.isEmpty then some i else none
  | c :: rest, i =>
    if pat.isPrefixOf (c :: rest) then some i else findSubAux pat rest (i + 1)

/-- Index of the first occurrence of `pat` in `l` (`str.find`; `none` = -1). -/
def findSub (l pat : List Char) : Option Nat := findSubAux pat l 0

/-- Python slice `l[a:b]` with step 1 (negative indices wrap from the end). -/
def pySlice (l : List Char) (a b : Int) : List Char :=
  let n : Int := l.length
  let norm : Int → Nat := fun i => if i < 0 then (max 0 (n + i)).toNat else (min i n).toNat
  (l.take (norm b)).drop (norm a)

def pyTruthyOptStr (o : Option String) : Bool :=
  match o with
  | none => false
  | some s => !s.isEmpty

/-- Truthiness of a JSON-number lexeme: zero iff all mantissa digits are 0
(exponent irrelevant); `NaN`/`Infinity` are truthy. -/
def jsonNumIsZero (raw : String) : Bool :=
  if raw = "NaN" || raw = "Infinity" || raw = "-Infinity" then false
  else (raw.data.takeWhile (fun c => !(c = 'e' || c = 'E'))).all
    (fun c => !c.isDigit || c = '0')

/-- Python truthiness of a loaded JSON value. -/
def pyTruthy : Json → Bool
  | .null => false
  | .bool b => b
  | .num raw => !(jsonNumIsZero raw)
  | .str s => !s.isEmpty
  | .arr l => !l.isEmpty
  | .obj kvs => !kvs.isEmpty

def jsonGet : List (String × Json) → String → Option Json
  | [], _ => none
  | (k, v) :: rest, key => if k = key then some v else jsonGet rest key

/-- Python subscript `j[key]` on a loaded JSON value: `KeyError` on a dict
without the key, `TypeError` on any non-dict. -/
def pyGet (j : Json) (key : String) : Except Unit Json :=
  match j with
  | .obj kvs =>
    (match jsonGet kvs key with
     | some v => .ok v
     | none => .error ())
  | _ => .error ()

/-- Python `key in j` for a loaded JSON value: key test on dicts, element
test on lists, substring test on strings, `TypeError` otherwise. -/
def pyContains (j : Json) (key : String) : Except Unit Bool :=
  match j with
  | .obj kvs => .ok (jsonGet kvs key).isSome
  | .arr l => .ok (l.contains (Json.str key))
  | .str s => .ok (findSub s.data key.data).isSome
  | _ => .error ()

mutual

/-- Python `str(x)` on a loaded JSON value.  Numbers print their lexeme
(exact for ints; CPython would canonicalise floats), containers print as
Python `repr` (quote escaping inside strings elided). -/
def pyStrOfJson : Json → String
  | .str s => s
  | .num raw => raw
  | .bool true => "True"
  | .bool false => "False"
  | .null => "None"
  | .arr l => "[" ++ pyReprList l ++ "]"
  | .obj kvs => "\x7b" ++ pyReprFields kvs ++ "\x7d"

def pyReprOfJson : Json → String
  | .str s => "'" ++ s ++ "'"
  | .num raw => raw
  | .bool true => "True"
  | .bool false => "False"
  | .null => "None"
  | .arr l => "[" ++ pyReprList l ++ "]"
  | .obj kvs => "\x7b" ++ pyReprFields kvs ++ "\x7d"

def pyReprList : List Json → String
  | [] => ""
  | [x] => pyReprOfJson x
  | x :: xs => pyReprOfJson x ++ ", " ++ pyReprList xs

def pyReprFields : List (String × Json) → String
  | [] => ""
  | [(k, v)] => "'" ++ k ++ "': " ++ pyReprOfJson v
  | (k, v) :: xs => "'" ++ k ++ "': " ++ pyReprOfJson v ++ ", " ++ pyReprFields xs

end

/-- `re.split(r'[,，]', s)`. -/
def splitCommas : List Char → List (List Char)
  | [] => [[]]
  | c :: rest =>
    if c = ',' || c = '，' then [] :: splitCommas rest
    else
      match splitCommas rest with
      | [] => [[c]]
      | piece :: more => (c :: piece) :: more

/-! ## `re.sub` cleanup passes of `extract_competitor_info` -/

/-- After a `}`: skip `\s*` and demand `{`, returning the suffix after it. -/
def afterWsBrace : List Char → Option (List Char)
  | [] => none
  | '\x7b' :: rest => some rest
  | c :: rest => if pyIsSpace c then afterWsBrace rest else none

/-- After a `"`: skip `\s*` and demand `"`, returning the suffix after it. -/
def afterWsQuote : List Char → Option (List Char)
  | [] => none
  | '"' :: rest => some rest
  | c :: rest => if pyIsSpace c then afterWsQuote rest else none

/-- `re.sub(r'\}\s*\{', '}, {', s)`.  Fuel is a recursion bound only: each
step consumes at least one character, so `length + 1` never runs out. -/
def subBraceCommaAux : Nat → List Char → List Char
  | 0, l => l
  | _, [] => []
  | fuel+1, c :: rest =>
    if c = '\x7d' then
      match afterWsBrace rest with
      | some rest3 => '\x7d' :: ',' :: ' ' :: '\x7b' :: subBraceCommaAux fuel rest3
      | none => '\x7d' :: subBraceCommaAux fuel rest
    else c :: subBraceCommaAux fuel rest

def subBraceComma (l : List Char) : List Char := subBraceCommaAux (l.length + 1) l

/-- `re.sub(r'\"\s*\"', '", "', s)` (the pattern also matches the empty
string `""`, whose two quotes are adjacent). -/
def subQuoteCommaAux : Nat → List Char → List Char
  | 0, l => l
  | _, [] => []
  | fuel+1, c :: rest =>
    if c = '"' then
      match afterWsQuote rest with
      | some rest3 => '"' :: ',' :: ' ' :: '"' :: subQuoteCommaAux fuel rest3
      | none => '"' :: subQuoteCommaAux fuel rest
    else c :: subQuoteCommaAux fuel rest

def subQuoteComma (l : List Char) : List Char := subQuoteCommaAux (l.length + 1) l

/-- `s.replace('：', ':')`. -/
def replaceFullColon (l : List Char) : List Char :=
  l.map (fun c => if c = '：' then ':' else c)

/-- The `re.search(r'```(?:json)?\s*([\s\S]*?)\s*```', s)` fenced-block
extraction of `extract_competitor_info`: content between the first fence
(optionally tagged `json`) and the next fence, stripped. -/
def fencedBlockRegex (s : List Char) : Option (List Char) :=
  match findSub s "```".data with
  | none => none
  | some i =>
    let afterOpen := s.drop (i + 3)
    let afterJson := if "json".data.isPrefixOf afterOpen then afterOpen.drop 4 else afterOpen
    match findSub afterJson "```".data with
    | none => none
    | some j => some (stripChars (afterJson.take j))

/-- The `find`/slice-based fence stripping of `generate_search_queries`
(competitor_agent.py:87-94): note the `end = -1` slice quirk when the
closing fence is missing. -/
def stripFencedGenerate (r : List Char) : List Char :=
  match findSub r "```json".data with
  | some i =>
    let start := i + 7
    let e : Int :=
      match findSub (r.drop start) "```".data with
      | some j => ((start + j : Nat) : Int)
      | none => -1
    stripChars (pySlice r (start : Int) e)
  | none =>
    match findSub r "```".data with
    | some i =>
      let start := i + 3
      let e : Int :=
        match findSub (r.drop start) "```".data with
        | some j => ((start + j : Nat) : Int)
        | none => -1
      stripChars (pySlice r (start : Int) e)
    | none => r

/-! ## Truncation repair and regex salvage of `extract_competitor_info` -/

/-- The truncation-repair loop (competitor_agent.py:286-320): locate
`"competitors"` and the following `[`, then try to close the document after
each `}` from the right (`json_str[:idx] + ']}'`) until one parses. -/
def truncationRepair (l : List Char) : Option Json :=
  match findSub l "\"competitors\"".data with
  | none => none
  | some ci =>
    match findSub (l.drop ci) "[".data with
    | none => none
    | some _ =>
      let ends := (List.range l.length).filterMap
        (fun i => if l.get? i = some '\x7d' then some (i + 1) else none)
      ends.reverse.findSome? (fun e => jsonLoads (l.take e ++ [']', '\x7d']))

def eatLit (lit l : List Char) : Option (List Char) :=
  if lit.isPrefixOf l then some (l.drop lit.length) else none

def eatWs (l : List Char) : List Char := l.dropWhile pyIsSpace

/-- Lazy regex capture: the smallest split `l = cap ++ rest` whose `rest`
satisfies the continuation (backtracking by growing the capture). -/
def lazySplit {α : Type} : Nat → (List Char → Option α) → List Char → List Char →
    Option (List Char × α)
  | 0, _, _, _ => none
  | fuel+1, k, acc, l =>
    match k l with
    | some a => some (acc.reverse, a)
    | none =>
      match l with
      | [] => none
      | c :: rest => lazySplit fuel k (c :: acc) rest

/-- After `[` in the salvage pattern: lazily capture until `]\s*}`. -/
def matchBlockTail2 (m : List Char) : Option (List Char × List Char) :=
  lazySplit (m.length + 1)
    (fun n => (eatLit "]".data n).bind (fun n0 => eatLit "\x7d".data (eatWs n0)))
    [] m

/-- After the opening quote of the name capture: lazily capture until
`"\s*,\s*"features"\s*:\s*[`, then the features capture. -/
def matchBlockTail1 (m : List Char) : Option (List Char × (List Char × List Char)) :=
  lazySplit (m.length + 1)
    (fun n =>
      (eatLit "\"".data n).bind fun n1 =>
      (eatLit ",".data (eatWs n1)).bind fun n2 =>
      (eatLit "\"features\"".data (eatWs n2)).bind fun n3 =>
      (eatLit ":".data (eatWs n3)).bind fun n4 =>
      (eatLit "[".data (eatWs n4)).bind fun n5 =>
      matchBlockTail2 n5)
    [] m

/-- Try the full salvage pattern
`\{\s*"name"\s*:\s*"(.*?)"\s*,\s*"features"\s*:\s*\[(.*?)\]\s*\}` at this
exact position. -/
def matchBlockAt (l : List Char) : Option ((List Char × List Char) × List Char) :=
  (eatLit "\x7b".data l).bind fun r0 =>
  (eatLit "\"name\"".data (eatWs r0)).bind fun r1 =>
  (eatLit ":".data (eatWs r1)).bind fun r2 =>
  (eatLit "\"".data (eatWs r2)).bind fun r3 =>
  (matchBlockTail1 r3).map fun p => ((p.1, p.2.1), p.2.2)

/-- `re.findall` of the salvage pattern: successive non-overlapping matches
scanning left to right. -/
def findBlocks : Nat → List Char → List (List Char × List Char)
  | 0, _ => []
  | fuel+1, l =>
    match l with
    | [] => []
    | _ :: rest =>
      match matchBlockAt l with
      | some (caps, r) => caps :: findBlocks fuel r
      | none => findBlocks fuel rest

/-- `re.findall(r'X(.*?)X', s)` for a one-character delimiter `q`:
successive minimal `q…q` pairs. -/
def quotedPiecesBy (q : Char) : Nat → List Char → List (List Char)
  | 0, _ => []
  | fuel+1, l =>
    match l with
    | [] => []
    | c :: rest =>
      if c = q then
        match findSub rest [q] with
        | some j => rest.take j :: quotedPiecesBy q fuel (rest.drop (j + 1))
        | none => []
      else quotedPiecesBy q fuel rest

/-- The regex salvage (competitor_agent.py:327-344): extract
`{"name": …, "features": […]}` shaped fragments, features by double-quote
pieces, falling back to single quotes. -/
def salvageBlocks (l : List Char) : List Json :=
  (findBlocks (l.length + 1) l).map (fun caps =>
    let feats := quotedPiecesBy '"' (caps.2.length + 1) caps.2
    let feats := if feats.isEmpty then quotedPiecesBy '\'' (caps.2.length + 1) caps.2
      else feats
    Json.obj [("name", Json.str ⟨caps.1⟩),
      ("features", Json.arr (feats.map (fun f => Json.str ⟨f⟩)))])

/-! ## Pipeline records -/

/-- One search hit as flattened by `search_competitors`:
`{"title", "url", "snippet"}`. -/
structure SearchResult where
  title : String
  url : String
  snippet : String
deriving DecidableEq

/-- One `WebContent` record of the fetch collaborator (web_reader.py):
`{url, title, content, success, error}`. -/
structure FetchedContent where
  url : String
  title : String
  content : String
  success : Bool
  error : Option String
deriving DecidableEq

/-- One webpage record of the search provider response (`webpages` item). -/
structure WebPage where
  name : String
  url : String
  snippet : String
deriving DecidableEq

/-- The record built by `search_single_query`: the query's own `type`,
`name`, `query` values plus the flattened search results. -/
structure QueryResult where
  qtype : Json
  qname : Json
  query : Json
  search_results : List SearchResult

/-! ## Per-source extraction (competitor_agent.py:205-360)

`extract_competitor_info(competitor_data, web_contents, llm_client, model)`.
The prompt assembled from `competitor_data`/`web_contents` only feeds the
LLM, which we model as the oracle `llm : Except Unit String` (the response
text, or a raised exception); `web_contents` therefore only matters through
the oracle.  Everything after the `chat_completion` call — fence stripping,
cleanup substitutions, parse, truncation repair, regex salvage and final
normalisation — is embedded faithfully. -/

/-- The final normalisation loop (competitor_agent.py:346-353): keep dict
items that have a `"name"` key, coerce the name with `str(...)`, keep
`"features"` only when it is a list. -/
def normalizeComps : List Json → List (Candidate Json)
  | [] => []
  | Json.obj kvs :: rest =>
    (match jsonGet kvs "name" with
     | some nameVal =>
       let feats : List Json :=
         match jsonGet kvs "features" with
         | some (Json.arr fs) => fs
         | _ => []
       ⟨pyStrOfJson nameVal, feats, none, none⟩ :: normalizeComps rest
     | none => normalizeComps rest)
  | _ :: rest => normalizeComps rest

/-- Outcome of the "extract data" step (competitor_agent.py:322-325) with
Python's dynamic-typing corner cases: `.error ()` stands for any path that
ends in the outer `except` (or in an iteration that can produce no dict
entries), `.ok items` for a well-defined competitors list — an empty one
sends the caller into the regex salvage. -/
def extractStep (parsed : Option Json) : Except Unit (List Json) :=
  match parsed with
  | none => .ok []
  | some pj =>
    if pyTruthy pj then
      match pyContains pj "competitors" with
      | .error _ => .error ()
      | .ok false => .ok []
      | .ok true =>
        match pyGet pj "competitors" with
        | .error _ => .error ()
        | .ok (Json.arr items) => .ok items
        | .ok other => if pyTruthy other then .error () else .ok []
    else .ok []

/-- Fenced-block stripping of `extract_competitor_info`
(competitor_agent.py:254-258): only applied when the text contains a fence,
and only when the regex actually matches. -/
def fenceStrip (s0 : List Char) : List Char :=
  if (findSub s0 "```".data).isSome then
    match fencedBlockRegex s0 with
    | some inner => inner
    | none => s0
  else s0

/-- `start_idx = json_str.find('{'); json_str = json_str[start_idx:]`
(competitor_agent.py:261-263). -/
def cutToBrace (s1 : List Char) : List Char :=
  match findSub s1 "\x7b".data with
  | some i => s1.drop i
  | none => s1

/-- Trailing-`...` removal (competitor_agent.py:273-274). -/
def dropDots (s5 : List Char) : List Char :=
  if "...".data.isSuffixOf s5 then stripChars (s5.take (s5.length - 3)) else s5

/-- The response-cleanup chain of `extract_competitor_info`
(competitor_agent.py:252-274): strip, fenced-block extraction, cut before
the first `{`, the two comma-repair substitutions, full-width colon
replacement, and trailing-`...` removal. -/
def extractCleaned (response : String) : List Char :=
  dropDots (replaceFullColon (subQuoteComma (subBraceComma
    (cutToBrace (fenceStrip (stripChars response.data))))))

/-- Parse, falling back to the truncation repair (competitor_agent.py:276-320). -/
def parseOrRepair (s6 : List Char) : Option Json :=
  match jsonLoads s6 with
  | some v => some v
  | none => truncationRepair s6

/-- `extract_competitor_info` after the `chat_completion` call succeeded
with `response` (competitor_agent.py:252-356): clean, parse (with
truncation repair), pull out `competitors`, salvage if empty, normalise.
(Python binds the cleaned string `json_str` once; the repeated
`extractCleaned response` here is the same pure value.) -/
def extractFromResponse (response : String) : List (Candidate Json) :=
  match extractStep (parseOrRepair (extractCleaned response)) with
  | .error _ => []
  | .ok items =>
    normalizeComps
      (if items.isEmpty then salvageBlocks (extractCleaned response) else items)

/-- `CompetitorAnalysisAgent.extract_competitor_info`
(competitor_agent.py:205-360). -/
def extract_competitor_info (competitor_data : List SearchResult)
    (_web_contents : List FetchedContent) (llm : Except Unit String) :
    List (Candidate Json) :=
  if competitor_data.isEmpty then []
  else
    match llm with
    | .error _ => []
    | .ok response => extractFromResponse response

/-- The JSON shape of one extractor entry `{"name": …, "features": […]}`. -/
def entryJson (e : String × List Json) : Json :=
  Json.obj [("name", Json.str e.1), ("features", Json.arr e.2)]

/-- Well-formedness of one query record for `search_single_query`: the three
subscripts it performs all succeed. -/
def wfQuery (q : Json) : Prop :=
  (∃ t, pyGet q "type" = .ok t) ∧ (∃ n, pyGet q "name" = .ok n) ∧
    (∃ s, pyGet q "query" = .ok s)

/-- Well-formedness of a `generate_search_queries` result as consumed by
`run`: a list of well-formed query records, or a falsy value (which makes
`run` return its empty result early). -/
def wfQueries : Json → Prop
  | Json.arr l => ∀ q ∈ l, wfQuery q
  | j => pyTruthy j = false

/-! ## Query generation (competitor_agent.py:35-119) -/

/-- The handwritten fallback queries of the `except` branch
(competitor_agent.py:100-119). -/
def queryFallback (domain features : Option String) (product_name : String) : List Json :=
  (match domain with
   | some d =>
     if d.isEmpty then []
     else
       [Json.obj [("type", Json.str "domain"), ("name", Json.str d),
         ("query", Json.str (d ++ " " ++ product_name ++ " 竞品"))]]
   | none => []) ++
  (match features with
   | some f =>
     if f.isEmpty then []
     else
       (splitCommas f.data).filterMap (fun piece =>
         let p : String := ⟨stripChars piece⟩
         if p.isEmpty then none
         else some (Json.obj [("type", Json.str "feature"), ("name", Json.str p),
           ("query", Json.str (p ++ " 功能的产品有哪些"))]))
   | none => [])

/-- `CompetitorAnalysisAgent.generate_search_queries`
(competitor_agent.py:35-119).  The return value is the raw
`result.get("queries", [])` (any JSON value — the code does not validate
its shape), as a `Json`; list results are `Json.arr`. -/
def generate_search_queries (domain features : Option String) (product_name : String)
    (llm : Except Unit String) : Json :=
  if !pyTruthyOptStr domain && !pyTruthyOptStr features then Json.arr []
  else
    match llm with
    | .error _ => Json.arr (queryFallback domain features product_name)
    | .ok response =>
      match jsonLoads (stripFencedGenerate response.data) with
      | some (Json.obj kvs) =>
        (match jsonGet kvs "queries" with
         | some v => v
         | none => Json.arr [])
      | some _ => Json.arr (queryFallback domain features product_name)
      | none => Json.arr (queryFallback domain features product_name)

/-! ## Search fan-out (competitor_agent.py:121-203) -/

/-- `CompetitorAnalysisAgent.search_competitors` (competitor_agent.py:121-147):
every provider exception degrades to `[]`; on success the provider's
webpages are flattened to `{title, url, snippet}` records (the
`results.get("webpages", [])` and per-item `.get` defaults are absorbed
into the oracle's `List WebPage` response shape). -/
def search_competitors (provider : Json → Nat → Except Unit (List WebPage))
    (query : Json) (max_results : Nat) : List SearchResult :=
  match provider query max_results with
  | .ok pages => pages.map (fun w => ⟨w.name, w.url, w.snippet⟩)
  | .error _ => []

/-- `CompetitorAnalysisAgent.search_single_query` (competitor_agent.py:149-167):
raises if the query record lacks subscriptable `query`/`type`/`name`. -/
def search_single_query (provider : Json → Nat → Except Unit (List WebPage))
    (query_info : Json) (max_results : Nat) : Except Unit QueryResult := do
  let query ← pyGet query_info "query"
  let sr := search_competitors provider query max_results
  let t ← pyGet query_info "type"
  let n ← pyGet query_info "name"
  return ⟨t, n, query, sr⟩

/-- `CompetitorAnalysisAgent.search_all_parallel` (competitor_agent.py:169-203),
serialized in submission order: a worker exception is turned into an
empty-results stub — but building the stub itself re-subscripts the query
dict and can raise out of the whole loop. -/
def searchLoop (provider : Json → Nat → Except Unit (List WebPage))
    (max_results : Nat) : List Json → Except Unit (List QueryResult)
  | [] => .ok []
  | q :: rest => do
    let r ← (match search_single_query provider q max_results with
      | .ok r => .ok r
      | .error _ => do
        let t ← pyGet q "type"
        let n ← pyGet q "name"
        let qq ← pyGet q "query"
        return (⟨t, n, qq, []⟩ : QueryResult))
    let rs ← searchLoop provider max_results rest
    return r :: rs

def search_all_parallel (provider : Json → Nat → Except Unit (List WebPage))
    (all_queries : List Json) (max_results : Nat) : Except Unit (List QueryResult) :=
  if all_queries.isEmpty then .ok []
  else searchLoop provider max_results all_queries

/-! ## Full pipeline run (competitor_agent.py:388-451) -/

/-- The dict returned by `CompetitorAnalysisAgent.run`. -/
structure RunResult where
  domain : Option String
  features : Option String
  product_name : String
  queries : List Json
  competitors : List (Candidate Json)
  total_count : Nat

/-- `CompetitorAnalysisAgent.run` (competitor_agent.py:388-451).  Oracles:
`llmQueries` for the query-generation completion, `provider` for the search
provider, `webReader` for `web_reader.read_urls`, `llmExtract` for the
extraction completion.  A truthy non-list `all_queries` value (possible
when the LLM returns `"queries"` of a non-list shape) makes the Python
`run` raise while iterating/len-ing it; this is the `.error ()` branch. -/
def CompetitorAnalysisAgent.run (domain features : Option String) (product_name : String)
    (llmQueries : Except Unit String)
    (provider : Json → Nat → Except Unit (List WebPage))
    (webReader : List String → List FetchedContent)
    (llmExtract : Except Unit String)
    (max_results : Nat) : Except Unit RunResult :=
  let all_queries := generate_search_queries domain features product_name llmQueries
  if !pyTruthy all_queries then
    .ok ⟨domain, features, product_name, [], [], 0⟩
  else
    match all_queries with
    | Json.arr qs => do
      let search_results ← search_all_parallel provider qs max_results
      let queries := search_results.map QueryResult.query
      let all_search_results := (search_results.map QueryResult.search_results).flatten
      let web_contents :=
        if !all_search_results.isEmpty then
          webReader ((dedupFirst (all_search_results.map SearchResult.url)).take 5)
        else []
      let extracted := extract_competitor_info all_search_results web_contents llmExtract
      let all_competitors := merge_and_deduplicate_competitors extracted
      return ⟨domain, features, product_name, queries, all_competitors,
        all_competitors.length⟩
    | _ => .error ()

/-! # Part B: theorems -/

/-! ## Python string primitives -/

theorem dropWhile_head_false {α : Type} (p : α → Bool) (l : List α) (a : α)
    (h : (l.dropWhile p).head? = some a) : p a = false := by
  induction l with
  | nil => simp [List.dropWhile] at h
  | cons x xs ih =>
    by_cases hx : p x
    · simp [List.dropWhile, hx] at h
      exact ih h
    · simp [List.dropWhile, hx] at h
      subst h
      simpa using hx

theorem dropWhile_eq_self_of_head {α : Type} (p : α → Bool) (l : List α)
    (h : ∀ a, l.head? = some a → p a = false) : l.dropWhile p = l := by
  cases l with
  | nil => rfl
  | cons x xs =>
    have hx := h x rfl
    simp [List.dropWhile, hx]

/-- `stripChars` produces a prefix of `dropWhile pyIsSpace l`, hence of `l`. -/
theorem stripChars_isPrefix (l : List Char) :
    stripChars l <+: l.dropWhile pyIsSpace := by
  unfold stripChars
  conv_rhs => rw [← List.reverse_reverse (l.dropWhile pyIsSpace)]
  exact List.reverse_prefix.mpr (List.dropWhile_suffix pyIsSpace)

theorem stripChars_head_false (l : List Char) (a : Char)
    (h : (stripChars l).head? = some a) : pyIsSpace a = false := by
  rcases stripChars_isPrefix l with ⟨t, ht⟩
  have : (l.dropWhile pyIsSpace).head? = some a := by
    rw [← ht, List.head?_append, h]
    rfl
  exact dropWhile_head_false pyIsSpace l a this

theorem stripChars_getLast_false (l : List Char) (a : Char)
    (h : (stripChars l).getLast? = some a) : pyIsSpace a = false := by
  unfold stripChars at h
  rw [List.getLast?_reverse] at h
  exact dropWhile_head_false pyIsSpace (l.dropWhile pyIsSpace).reverse a h

theorem stripChars_idem (l : List Char) : stripChars (stripChars l) = stripChars l := by
  have h1 : (stripChars l).dropWhile pyIsSpace = stripChars l :=
    dropWhile_eq_self_of_head pyIsSpace (stripChars l) (stripChars_head_false l)
  have h2 : (stripChars l).reverse.dropWhile pyIsSpace = (stripChars l).reverse := by
    apply dropWhile_eq_self_of_head
    intro a ha
    rw [List.head?_reverse] at ha
    exact stripChars_getLast_false l a ha
  calc stripChars (stripChars l)
      = (((stripChars l).dropWhile pyIsSpace).reverse.dropWhile pyIsSpace).reverse := rfl
    _ = ((stripChars l).reverse.dropWhile pyIsSpace).reverse := by rw [h1]
    _ = ((stripChars l).reverse).reverse := by rw [h2]
    _ = stripChars l := List.reverse_reverse _

theorem pyStrip_idem (s : String) : pyStrip (pyStrip s) = pyStrip s :=
  congrArg String.mk (stripChars_idem s.data)

theorem pyLower_eq_empty_iff (s : String) : pyLower s = "" ↔ s = "" := by
  constructor
  · intro h
    have hd : s.data.map Char.toLower = ([] : List Char) := congrArg String.data h
    have hnil : s.data = [] := by simpa using hd
    cases s with
    | mk data =>
      have h2 : data = [] := hnil
      rw [h2]
  · intro h
    rw [h]
    decide

/-! ## First-occurrence deduplication -/

section DedupLemmas

variable {β : Type} [BEq β] [LawfulBEq β]

theorem mem_dedupFirstAux (a : β) (seen l : List β) :
    a ∈ dedupFirstAux seen l ↔ a ∈ l ∧ a ∉ seen := by
  induction l generalizing seen with
  | nil => simp [dedupFirstAux]
  | cons x xs ih =>
    by_cases hx : seen.contains x
    · have hxs : x ∈ seen := by simpa [List.contains_eq_any_beq] using hx
      simp only [dedupFirstAux, hx, if_true, ih]
      constructor
      · rintro ⟨h1, h2⟩
        exact ⟨List.mem_cons_of_mem _ h1, h2⟩
      · rintro ⟨h1, h2⟩
        rcases List.mem_cons.mp h1 with rfl | h1
        · exact absurd hxs h2
        · exact ⟨h1, h2⟩
    · have hxs : x ∉ seen := by simpa [List.contains_eq_any_beq] using hx
      simp only [dedupFirstAux]
      rw [if_neg hx]
      constructor
      · intro hmem
        rcases List.mem_cons.mp hmem with rfl | hmem
        · exact ⟨List.mem_cons_self _ _, hxs⟩
        · obtain ⟨h1, h2⟩ := (ih (x :: seen)).mp hmem
          exact ⟨List.mem_cons_of_mem _ h1, fun hs => h2 (List.mem_cons_of_mem _ hs)⟩
      · rintro ⟨h1, h2⟩
        rcases List.mem_cons.mp h1 with rfl | h1
        · exact List.mem_cons_self _ _
        · by_cases hax : a = x
          · subst hax
            exact List.mem_cons_self _ _
          · exact List.mem_cons_of_mem _ ((ih (x :: seen)).mpr
              ⟨h1, fun hmem => (List.mem_cons.mp hmem).elim hax h2⟩)

theorem mem_dedupFirst (a : β) (l : List β) : a ∈ dedupFirst l ↔ a ∈ l := by
  simp [dedupFirst, mem_dedupFirstAux]

theorem nodup_dedupFirstAux (seen l : List β) : (dedupFirstAux seen l).Nodup := by
  induction l generalizing seen with
  | nil => simp [dedupFirstAux]
  | cons x xs ih =>
    by_cases hx : seen.contains x
    · simp only [dedupFirstAux]
      rw [if_pos hx]
      exact ih seen
    · simp only [dedupFirstAux]
      rw [if_neg hx]
      refine List.nodup_cons.mpr ⟨?_, ih (x :: seen)⟩
      intro hmem
      exact ((mem_dedupFirstAux x (x :: seen) xs).mp hmem).2 (List.mem_cons_self x seen)

theorem nodup_dedupFirst (l : List β) : (dedupFirst l).Nodup :=
  nodup_dedupFirstAux [] l

theorem dedupFirstAux_eq_self (seen l : List β) (hl : l.Nodup)
    (hdisj : ∀ a ∈ l, a ∉ seen) : dedupFirstAux seen l = l := by
  induction l generalizing seen with
  | nil => rfl
  | cons x xs ih =>
    have hx : ¬ seen.contains x := by
      intro hc
      exact hdisj x (List.mem_cons_self x xs) (by simpa [List.contains_eq_any_beq] using hc)
    simp only [dedupFirstAux]
    rw [if_neg hx]
    congr 1
    apply ih (x :: seen) (List.nodup_cons.mp hl).2
    intro a ha
    rw [List.mem_cons]
    rintro (rfl | hmem)
    · exact (List.nodup_cons.mp hl).1 ha
    · exact hdisj a (List.mem_cons_of_mem _ ha) hmem

theorem dedupFirst_eq_self (l : List β) (hl : l.Nodup) : dedupFirst l = l :=
  dedupFirstAux_eq_self [] l hl (by simp)

end DedupLemmas

/-! ## Merge lemmas -/

section MergeLemmas

variable {β : Type} [BEq β]

theorem lookupK_mergeInto (key nm : String) (feats : List β) (acc : MergeAcc β) (k : String) :
    lookupK k (mergeInto key nm feats acc) =
      if k = key then
        (match lookupK key acc with
          | some e => some ⟨e.name, dedupFirst (e.features ++ feats), e.score, e.reason⟩
          | none => some ⟨nm, dedupFirst feats, none, none⟩)
      else lookupK k acc := by
  induction acc with
  | nil =>
    simp only [mergeInto, lookupK]
    by_cases hk : k = key
    · rw [if_pos hk.symm, if_pos hk]
    · rw [if_neg (fun h => hk h.symm), if_neg hk]
  | cons p rest ih =>
    obtain ⟨k', e⟩ := p
    by_cases hcol : k' = key
    · simp only [mergeInto]
      rw [if_pos hcol]
      simp only [lookupK]
      by_cases h1 : k' = k
      · rw [if_pos h1, if_pos (h1.symm.trans hcol)]
        rw [if_pos hcol]
      · rw [if_neg h1, if_neg (fun h : k = key => h1 (hcol.trans h.symm))]
        rw [if_neg h1]
    · simp only [mergeInto]
      rw [if_neg hcol]
      simp only [lookupK]
      by_cases h1 : k' = k
      · rw [if_pos h1, if_neg (fun h : k = key => hcol (h1.trans h))]
        rw [if_pos h1]
      · rw [if_neg h1, ih]
        by_cases h2 : k = key
        · rw [if_pos h2, if_pos h2, if_neg hcol]
        · rw [if_neg h2, if_neg h2, if_neg h1]

theorem keysOf_mergeInto (key nm : String) (feats : List β) (acc : MergeAcc β) :
    keysOf (mergeInto key nm feats acc) =
      if key ∈ keysOf acc then keysOf acc else keysOf acc ++ [key] := by
  induction acc with
  | nil => simp [mergeInto, keysOf]
  | cons p rest ih =>
    obtain ⟨k', e⟩ := p
    by_cases hcol : k' = key
    · subst hcol
      simp [mergeInto, keysOf]
    · simp only [mergeInto]
      rw [if_neg hcol]
      simp only [keysOf, List.map_cons] at ih ⊢
      rw [ih]
      have hne : ¬ key = k' := fun h => hcol h.symm
      by_cases hmem : key ∈ List.map Prod.fst rest
      · simp [hmem, hne]
      · simp [hmem, hne]

theorem mergeInto_of_not_mem (key nm : String) (feats : List β) (acc : MergeAcc β)
    (h : key ∉ keysOf acc) :
    mergeInto key nm feats acc = acc ++ [(key, ⟨nm, dedupFirst feats, none, none⟩)] := by
  induction acc with
  | nil => rfl
  | cons p rest ih =>
    obtain ⟨k', e⟩ := p
    have hk : ¬ k' = key := by
      intro hk
      exact h (by simp [keysOf, hk])
    simp only [mergeInto]
    rw [if_neg hk]
    rw [ih (fun hmem => h (by simp [keysOf] at hmem ⊢; exact Or.inr hmem))]
    simp

theorem mem_mergeInto (key nm : String) (feats : List β) (acc : MergeAcc β)
    (p : String × Candidate β) (hp : p ∈ mergeInto key nm feats acc) :
    p ∈ acc ∨
      (∃ e, (key, e) ∈ acc ∧
        p = (key, ⟨e.name, dedupFirst (e.features ++ feats), e.score, e.reason⟩)) ∨
      p = (key, ⟨nm, dedupFirst feats, none, none⟩) := by
  induction acc with
  | nil =>
    simp only [mergeInto, List.mem_singleton] at hp
    exact Or.inr (Or.inr hp)
  | cons q rest ih =>
    obtain ⟨k', e'⟩ := q
    by_cases hcol : k' = key
    · simp only [mergeInto] at hp
      rw [if_pos hcol] at hp
      rcases List.mem_cons.mp hp with h | hp
      · rw [← hcol]
        exact Or.inr (Or.inl ⟨e', List.mem_cons_self _ _, h⟩)
      · exact Or.inl (List.mem_cons_of_mem _ hp)
    · simp only [mergeInto] at hp
      rw [if_neg hcol] at hp
      rcases List.mem_cons.mp hp with h | hp
      · rw [h]
        exact Or.inl (List.mem_cons_self _ _)
      · rcases ih hp with h | ⟨e, he, heq⟩ | h
        · exact Or.inl (List.mem_cons_of_mem _ h)
        · exact Or.inr (Or.inl ⟨e, List.mem_cons_of_mem _ he, heq⟩)
        · exact Or.inr (Or.inr h)

theorem entryInv_mergeStep [LawfulBEq β] (acc : MergeAcc β) (c : Candidate β)
    (hacc : ∀ p ∈ acc, EntryInv p) : ∀ p ∈ mergeStep acc c, EntryInv p := by
  intro p hp
  unfold mergeStep at hp
  by_cases hnm : pyStrip c.name = ""
  · rw [if_pos hnm] at hp
    exact hacc p hp
  · rw [if_neg hnm] at hp
    rcases mem_mergeInto _ _ _ _ _ hp with h | ⟨e, he, heq⟩ | h
    · exact hacc p h
    · obtain ⟨h1, h2, h3, _h4, h5, h6⟩ := hacc _ he
      rw [heq]
      exact ⟨h1, h2, h3, nodup_dedupFirst _, h5, h6⟩
    · rw [h]
      exact ⟨rfl, pyStrip_idem c.name, hnm, nodup_dedupFirst _, rfl, rfl⟩

theorem entryInv_fold [LawfulBEq β] (cs : List (Candidate β)) (acc : MergeAcc β)
    (hacc : ∀ p ∈ acc, EntryInv p) : ∀ p ∈ cs.foldl mergeStep acc, EntryInv p := by
  induction cs generalizing acc with
  | nil => exact hacc
  | cons c cs ih =>
    exact ih (mergeStep acc c) (entryInv_mergeStep acc c hacc)

theorem mem_keys_mergeStep (acc : MergeAcc β) (c : Candidate β) (k : String) :
    k ∈ keysOf (mergeStep acc c) ↔
      k ∈ keysOf acc ∨ (pyStrip c.name ≠ "" ∧ pyLower (pyStrip c.name) = k) := by
  unfold mergeStep
  by_cases hnm : pyStrip c.name = ""
  · rw [if_pos hnm]
    simp [hnm]
  · rw [if_neg hnm]
    rw [keysOf_mergeInto]
    by_cases hmem : pyLower (pyStrip c.name) ∈ keysOf acc
    · rw [if_pos hmem]
      constructor
      · exact fun h => Or.inl h
      · rintro (h | ⟨_, rfl⟩)
        · exact h
        · exact hmem
    · rw [if_neg hmem]
      rw [List.mem_append, List.mem_singleton]
      constructor
      · rintro (h | rfl)
        · exact Or.inl h
        · exact Or.inr ⟨hnm, rfl⟩
      · rintro (h | ⟨_, rfl⟩)
        · exact Or.inl h
        · exact Or.inr rfl

theorem mem_keys_fold (cs : List (Candidate β)) (acc : MergeAcc β) (k : String) :
    k ∈ keysOf (cs.foldl mergeStep acc) ↔
      k ∈ keysOf acc ∨ ∃ c ∈ cs, pyStrip c.name ≠ "" ∧ pyLower (pyStrip c.name) = k := by
  induction cs generalizing acc with
  | nil => simp
  | cons c cs ih =>
    rw [List.foldl_cons, ih, mem_keys_mergeStep]
    constructor
    · rintro ((h | h) | ⟨c', hc', h⟩)
      · exact Or.inl h
      · exact Or.inr ⟨c, List.mem_cons_self _ _, h⟩
      · exact Or.inr ⟨c', List.mem_cons_of_mem _ hc', h⟩
    · rintro (h | ⟨c', hc', h⟩)
      · exact Or.inl (Or.inl h)
      · rcases List.mem_cons.mp hc' with rfl | hc'
        · exact Or.inl (Or.inr h)
        · exact Or.inr ⟨c', hc', h⟩

theorem featAt_mergeStep [LawfulBEq β] (acc : MergeAcc β) (c : Candidate β) (k : String)
    (f : β) :
    FeatAt k f (mergeStep acc c) ↔
      FeatAt k f acc ∨
        (pyStrip c.name ≠ "" ∧ pyLower (pyStrip c.name) = k ∧ f ∈ c.features) := by
  unfold mergeStep
  unfold FeatAt
  by_cases hnm : pyStrip c.name = ""
  · rw [if_pos hnm]
    simp [hnm]
  · rw [if_neg hnm]
    by_cases hk : k = pyLower (pyStrip c.name)
    · subst hk
      constructor
      · rintro ⟨e', he', hf⟩
        rw [lookupK_mergeInto, if_pos rfl] at he'
        rcases hlook : lookupK (pyLower (pyStrip c.name)) acc with _ | e
        · rw [hlook] at he'
          have he2 : e' = ⟨pyStrip c.name, dedupFirst c.features, none, none⟩ :=
            (Option.some.inj he').symm
          rw [he2] at hf
          rw [show Candidate.features ⟨pyStrip c.name, dedupFirst c.features, none, none⟩
              = dedupFirst c.features from rfl, mem_dedupFirst] at hf
          exact Or.inr ⟨hnm, rfl, hf⟩
        · rw [hlook] at he'
          have he2 : e' = ⟨e.name, dedupFirst (e.features ++ c.features), e.score, e.reason⟩ :=
            (Option.some.inj he').symm
          rw [he2] at hf
          rw [show Candidate.features
              ⟨e.name, dedupFirst (e.features ++ c.features), e.score, e.reason⟩
              = dedupFirst (e.features ++ c.features) from rfl,
            mem_dedupFirst, List.mem_append] at hf
          rcases hf with hf | hf
          · exact Or.inl ⟨e, rfl, hf⟩
          · exact Or.inr ⟨hnm, rfl, hf⟩
      · intro hcase
        rcases hlook : lookupK (pyLower (pyStrip c.name)) acc with _ | e
        · refine ⟨⟨pyStrip c.name, dedupFirst c.features, none, none⟩, ?_, ?_⟩
          · rw [lookupK_mergeInto, if_pos rfl, hlook]
          · rcases hcase with ⟨e', he', _⟩ | ⟨_, _, hf⟩
            · rw [hlook] at he'
              exact Option.noConfusion he'
            · exact (mem_dedupFirst _ _).mpr hf
        · refine ⟨⟨e.name, dedupFirst (e.features ++ c.features), e.score, e.reason⟩, ?_, ?_⟩
          · rw [lookupK_mergeInto, if_pos rfl, hlook]
          · rcases hcase with ⟨e', he', hf⟩ | ⟨_, _, hf⟩
            · rw [hlook] at he'
              have he2 : e = e' := Option.some.inj he'
              rw [← he2] at hf
              exact (mem_dedupFirst _ _).mpr (List.mem_append.mpr (Or.inl hf))
            · exact (mem_dedupFirst _ _).mpr (List.mem_append.mpr (Or.inr hf))
    · constructor
      · rintro ⟨e', he', hf⟩
        rw [lookupK_mergeInto, if_neg hk] at he'
        exact Or.inl ⟨e', he', hf⟩
      · rintro (⟨e', he', hf⟩ | ⟨_, hkey, _⟩)
        · refine ⟨e', ?_, hf⟩
          rw [lookupK_mergeInto, if_neg hk]
          exact he'
        · exact absurd hkey.symm hk

theorem featAt_fold [LawfulBEq β] (cs : List (Candidate β)) (acc : MergeAcc β) (k : String)
    (f : β) :
    FeatAt k f (cs.foldl mergeStep acc) ↔
      FeatAt k f acc ∨
        ∃ c ∈ cs, pyStrip c.name ≠ "" ∧ pyLower (pyStrip c.name) = k ∧ f ∈ c.features := by
  induction cs generalizing acc with
  | nil => simp
  | cons c cs ih =>
    rw [List.foldl_cons, ih, featAt_mergeStep]
    constructor
    · rintro ((h | h) | ⟨c', hc', h⟩)
      · exact Or.inl h
      · exact Or.inr ⟨c, List.mem_cons_self _ _, h⟩
      · exact Or.inr ⟨c', List.mem_cons_of_mem _ hc', h⟩
    · rintro (h | ⟨c', hc', h⟩)
      · exact Or.inl (Or.inl h)
      · rcases List.mem_cons.mp hc' with rfl | hc'
        · exact Or.inl (Or.inr h)
        · exact Or.inr ⟨c', hc', h⟩

theorem nodup_keys_mergeStep (acc : MergeAcc β) (c : Candidate β)
    (h : (keysOf acc).Nodup) : (keysOf (mergeStep acc c)).Nodup := by
  unfold mergeStep
  by_cases hnm : pyStrip c.name = ""
  · rw [if_pos hnm]
    exact h
  · rw [if_neg hnm, keysOf_mergeInto]
    by_cases hmem : pyLower (pyStrip c.name) ∈ keysOf acc
    · rw [if_pos hmem]
      exact h
    · rw [if_neg hmem]
      simp [List.nodup_append, h, hmem]

theorem nodup_keys_fold (cs : List (Candidate β)) (acc : MergeAcc β)
    (h : (keysOf acc).Nodup) : (keysOf (cs.foldl mergeStep acc)).Nodup := by
  induction cs generalizing acc with
  | nil => exact h
  | cons c cs ih =>
    exact ih _ (nodup_keys_mergeStep acc c h)

theorem lookupK_eq_some_iff_mem (acc : MergeAcc β) (hnd : (keysOf acc).Nodup)
    (k : String) (e : Candidate β) :
    lookupK k acc = some e ↔ (k, e) ∈ acc := by
  induction acc with
  | nil => simp [lookupK]
  | cons p rest ih =>
    obtain ⟨k', e'⟩ := p
    have hnd' : (keysOf rest).Nodup := (List.nodup_cons.mp hnd).2
    have hout : k' ∉ keysOf rest := (List.nodup_cons.mp hnd).1
    simp only [lookupK, List.mem_cons]
    by_cases hk : k' = k
    · subst hk
      rw [if_pos rfl]
      constructor
      · intro h
        have he : e' = e := Option.some.inj h
        exact Or.inl (by rw [he])
      · rintro (h | h)
        · have he : e = e' := congrArg Prod.snd h
          rw [he]
        · have hkmem : k' ∈ keysOf rest := by
            have := List.mem_map_of_mem Prod.fst h
            simpa [keysOf] using this
          exact absurd hkmem hout
    · rw [if_neg hk]
      rw [ih hnd']
      constructor
      · exact fun h => Or.inr h
      · rintro (h | h)
        · have hkk : k = k' := congrArg Prod.fst h
          exact absurd hkk.symm hk
        · exact h

end MergeLemmas

section MergeOutput

variable {β : Type} [BEq β] [LawfulBEq β]

/-- Feeding the merge loop a list of already-merged, key-distinct entries just
re-inserts every entry unchanged at the end of the dict. -/
theorem foldl_mergeStep_append (es : List (Candidate β)) (acc : MergeAcc β)
    (hgood : ∀ e ∈ es, pyStrip e.name = e.name ∧ e.name ≠ "" ∧ e.features.Nodup ∧
      e.score = none ∧ e.reason = none)
    (hnd : (keysOf acc ++ es.map fun e => pyLower e.name).Nodup) :
    es.foldl mergeStep acc = acc ++ es.map (fun e => (pyLower e.name, e)) := by
  induction es generalizing acc with
  | nil => simp
  | cons e es ih =>
    obtain ⟨hs, hne, hfnd, hsc, hrs⟩ := hgood e (List.mem_cons_self _ _)
    have hstep : mergeStep acc e = acc ++ [(pyLower e.name, e)] := by
      unfold mergeStep
      rw [hs, if_neg hne]
      have hkey : pyLower e.name ∉ keysOf acc := by
        intro hmem
        have hdisj := (List.nodup_append.mp hnd).2.2
        exact hdisj hmem (by simp)
      rw [mergeInto_of_not_mem _ _ _ _ hkey]
      have hee : (⟨e.name, dedupFirst e.features, none, none⟩ : Candidate β) = e := by
        rw [dedupFirst_eq_self _ hfnd]
        obtain ⟨n, fs, sc, rs⟩ := e
        have h1 : sc = none := hsc
        have h2 : rs = none := hrs
        rw [h1, h2]
      rw [hee]
    rw [List.foldl_cons, hstep]
    rw [ih (acc ++ [(pyLower e.name, e)])
      (fun e' he' => hgood e' (List.mem_cons_of_mem _ he'))
      (by
        have : keysOf (acc ++ [(pyLower e.name, e)]) = keysOf acc ++ [pyLower e.name] := by
          simp [keysOf]
        rw [this, List.append_assoc]
        simpa using hnd)]
    simp

/-- Entries of the merge output are stripped, non-empty, duplicate-free in
features and carry no score/reason key. -/
theorem merge_output_good (cs : List (Candidate β)) :
    ∀ e ∈ merge_and_deduplicate_competitors cs,
      pyStrip e.name = e.name ∧ e.name ≠ "" ∧ e.features.Nodup ∧
        e.score = none ∧ e.reason = none := by
  intro e he
  unfold merge_and_deduplicate_competitors at he
  obtain ⟨p, hp, hpe⟩ := List.mem_map.mp he
  obtain ⟨_, h2, h3, h4, h5, h6⟩ := entryInv_fold cs [] (by simp) p hp
  rw [← hpe]
  exact ⟨h2, h3, h4, h5, h6⟩

/-- Lowercased output names are exactly the dict keys. -/
theorem merge_map_lower_eq_keys (cs : List (Candidate β)) :
    (merge_and_deduplicate_competitors cs).map (fun e => pyLower e.name)
      = keysOf (cs.foldl mergeStep []) := by
  unfold merge_and_deduplicate_competitors
  rw [List.map_map]
  exact List.map_congr_left
    (fun p hp => (entryInv_fold cs [] (by simp) p hp).1)

/-- Merging is literally idempotent on the nose. -/
theorem merge_merge_eq (cs : List (Candidate β)) :
    merge_and_deduplicate_competitors (merge_and_deduplicate_competitors cs)
      = merge_and_deduplicate_competitors cs := by
  have hnd0 : (keysOf (cs.foldl mergeStep ([] : MergeAcc β))).Nodup :=
    nodup_keys_fold cs [] (by simp [keysOf])
  have hfold := foldl_mergeStep_append (merge_and_deduplicate_competitors cs) []
    (merge_output_good cs)
    (by
      rw [show keysOf ([] : MergeAcc β) = [] from rfl, List.nil_append,
        merge_map_lower_eq_keys]
      exact hnd0)
  conv_lhs => rw [merge_and_deduplicate_competitors]
  rw [hfold, List.nil_append, List.map_map]
  show (merge_and_deduplicate_competitors cs).map id = merge_and_deduplicate_competitors cs
  exact List.map_id _

end MergeOutput

/-! ## Claim theorems: merge (C2, C3, C4, C9) -/

/-- C2 (counterexample): the claim says that when two candidates collide on
the lowercased name, the merged entry carries `score` equal to the maximum
incoming score (and the higher-scored `reason`).  On the code, merging a
score-3 and a score-9 candidate named "A" yields a single entry with *no*
score and *no* reason at all — in particular not `some 9`. -/
theorem merge_score_counterexample :
    merge_and_deduplicate_competitors
        [(⟨"A", ([] : List String), some 3, some "r1"⟩ : Candidate String),
          ⟨"A", [], some 9, some "r2"⟩]
      = [⟨"A", [], none, none⟩] ∧
    ¬ ∃ e ∈ merge_and_deduplicate_competitors
        [(⟨"A", ([] : List String), some 3, some "r1"⟩ : Candidate String),
          ⟨"A", [], some 9, some "r2"⟩], e.score = some 9 := by
  constructor
  · rfl
  · decide

/-- C2 (amended): on collision the feature lists are unioned, but the merge
does not track `score`/`reason` at all: every entry of the merge output has
no `score` and no `reason` key, whatever scores the inputs carried. -/
theorem merge_no_score_tracking (cs : List (Candidate String)) (e : Candidate String)
    (he : e ∈ merge_and_deduplicate_competitors cs) :
    e.score = none ∧ e.reason = none := by
  obtain ⟨_, _, _, h5, h6⟩ := merge_output_good cs e he
  exact ⟨h5, h6⟩

theorem merge_no_score_tracking_witness :
    (Candidate.mk "A" ([] : List String) none none).score = none ∧
    (Candidate.mk "A" ([] : List String) none none).reason = none :=
  merge_no_score_tracking
    [⟨"A", [], some 3, some "r1"⟩, ⟨"A", [], some 9, some "r2"⟩]
    ⟨"A", [], none, none⟩ (by decide)

/-- C3 (counterexample): the claim says candidates whose name is on a
blocklist of generic UI terms (e.g. "登录"/login), or shorter than 2
characters, never appear in the merge output.  The merge in the code has no
such filter: a candidate named "登录" passes straight through. -/
theorem merge_blocklist_counterexample :
    merge_and_deduplicate_competitors
        [(⟨"登录", ["功能"], some 10, none⟩ : Candidate String)]
      = [⟨"登录", ["功能"], none, none⟩] ∧
    ∃ e ∈ merge_and_deduplicate_competitors
        [(⟨"登录", ["功能"], some 10, none⟩ : Candidate String)], e.name = "登录" := by
  constructor
  · rfl
  · decide

/-- C3 (amended): the merge rejects exactly the candidates whose
whitespace-stripped name is empty; there is no parenthetical stripping, no
minimum-length rule and no blocklist.  A lowercased stripped name `k` occurs
among the output names if and only if some input candidate has a non-empty
stripped name lowercasing to `k`. -/
theorem merge_rejects_only_blank_names (cs : List (Candidate String)) (k : String) :
    (∃ e ∈ merge_and_deduplicate_competitors cs, pyLower e.name = k) ↔
      ∃ c ∈ cs, pyStrip c.name ≠ "" ∧ pyLower (pyStrip c.name) = k := by
  constructor
  · rintro ⟨e, he, hk⟩
    obtain ⟨p, hp, hpe⟩ := List.mem_map.mp he
    have hinv := entryInv_fold cs [] (by simp) p hp
    have hkey : p.1 = k := by
      rw [← hinv.1, hpe, hk]
    have hmem : k ∈ keysOf (cs.foldl mergeStep []) := by
      rw [← hkey]
      exact List.mem_map_of_mem Prod.fst hp
    rcases (mem_keys_fold cs [] k).mp hmem with h | h
    · simp [keysOf] at h
    · exact h
  · intro h
    have hmem : k ∈ keysOf (cs.foldl mergeStep []) :=
      (mem_keys_fold cs [] k).mpr (Or.inr h)
    obtain ⟨p, hp, hpk⟩ := List.mem_map.mp hmem
    refine ⟨p.2, List.mem_map_of_mem Prod.snd hp, ?_⟩
    rw [(entryInv_fold cs [] (by simp) p hp).1, hpk]

/-- C4: the merge output never contains two entries sharing a lowercased
name, and two candidates whose stripped names agree up to letter case merge
into a single entry whose feature set is the union (by exact string
identity) of both feature sets. -/
theorem merge_case_insensitive_unique (cs : List (Candidate String)) :
    ((merge_and_deduplicate_competitors cs).map fun e => pyLower e.name).Nodup ∧
    ∀ c1 c2 : Candidate String, pyStrip c1.name ≠ "" →
      pyLower (pyStrip c1.name) = pyLower (pyStrip c2.name) →
      ∃ e, merge_and_deduplicate_competitors [c1, c2] = [e] ∧
        ∀ f, f ∈ e.features ↔ f ∈ c1.features ∨ f ∈ c2.features := by
  constructor
  · rw [merge_map_lower_eq_keys]
    exact nodup_keys_fold cs [] (by simp [keysOf])
  · intro c1 c2 h1 h2
    have h2ne : pyStrip c2.name ≠ "" := by
      intro h0
      rw [h0] at h2
      have : pyLower (pyStrip c1.name) = "" := by
        rw [h2]
        decide
      exact h1 ((pyLower_eq_empty_iff _).mp this)
    have e1 : mergeStep ([] : MergeAcc String) c1 =
        [(pyLower (pyStrip c1.name),
          ⟨pyStrip c1.name, dedupFirst c1.features, none, none⟩)] := by
      unfold mergeStep
      rw [if_neg h1]
      rfl
    have e2 : mergeStep
        [(pyLower (pyStrip c1.name),
          ⟨pyStrip c1.name, dedupFirst c1.features, none, none⟩)] c2 =
        [(pyLower (pyStrip c1.name),
          ⟨pyStrip c1.name, dedupFirst (dedupFirst c1.features ++ c2.features),
            none, none⟩)] := by
      unfold mergeStep
      rw [if_neg h2ne]
      simp only [mergeInto]
      rw [if_pos h2]
    refine ⟨⟨pyStrip c1.name, dedupFirst (dedupFirst c1.features ++ c2.features),
      none, none⟩, ?_, ?_⟩
    · unfold merge_and_deduplicate_competitors
      rw [List.foldl_cons, List.foldl_cons, List.foldl_nil, e1, e2]
      rfl
    · intro f
      rw [show Candidate.features
          ⟨pyStrip c1.name, dedupFirst (dedupFirst c1.features ++ c2.features),
            none, none⟩
          = dedupFirst (dedupFirst c1.features ++ c2.features) from rfl]
      rw [mem_dedupFirst, List.mem_append, mem_dedupFirst]

theorem merge_case_insensitive_unique_witness :
    ∃ e, merge_and_deduplicate_competitors
        [(⟨"Acme", ["f1"], none, none⟩ : Candidate String), ⟨"acme", ["f2"], none, none⟩]
      = [e] ∧ ∀ f, f ∈ e.features ↔ f ∈ ["f1"] ∨ f ∈ ["f2"] :=
  (merge_case_insensitive_unique []).2
    ⟨"Acme", ["f1"], none, none⟩ ⟨"acme", ["f2"], none, none⟩
    (by decide) (by decide)

/-- C9: merging is idempotent — re-feeding the merge output through the merge
yields literally the same list, hence the same set of names and feature sets
that are the same (in particular, supersets). -/
theorem merge_idempotent (cs : List (Candidate String)) :
    merge_and_deduplicate_competitors (merge_and_deduplicate_competitors cs)
        = merge_and_deduplicate_competitors cs ∧
    (merge_and_deduplicate_competitors (merge_and_deduplicate_competitors cs)).map
        Candidate.name
      = (merge_and_deduplicate_competitors cs).map Candidate.name ∧
    ∀ e ∈ merge_and_deduplicate_competitors cs,
      ∃ e2 ∈ merge_and_deduplicate_competitors (merge_and_deduplicate_competitors cs),
        e2.name = e.name ∧ ∀ f ∈ e.features, f ∈ e2.features := by
  have h := merge_merge_eq cs
  refine ⟨h, by rw [h], ?_⟩
  intro e he
  refine ⟨e, ?_, rfl, fun f hf => hf⟩
  rw [h]
  exact he

theorem merge_idempotent_witness :
    merge_and_deduplicate_competitors (merge_and_deduplicate_competitors
        [(⟨" Acme ", ["f1", "f1"], some 7, none⟩ : Candidate String)])
      = merge_and_deduplicate_competitors
        [(⟨" Acme ", ["f1", "f1"], some 7, none⟩ : Candidate String)] :=
  (merge_idempotent _).1

/-! ## Claim theorems: validator (C1) -/

theorem scoreDescBool_trans (a b c : ScoredCompetitor)
    (h1 : scoreDescBool a b) (h2 : scoreDescBool b c) : scoreDescBool a c := by
  simp only [scoreDescBool, decide_eq_true_eq] at h1 h2 ⊢
  exact le_trans h2 h1

theorem scoreDescBool_total (a b : ScoredCompetitor) :
    (scoreDescBool a b || scoreDescBool b a) = true := by
  simp only [scoreDescBool, Bool.or_eq_true, decide_eq_true_eq]
  exact Int.le_total b.score a.score

theorem sorted_desc_mergeSort (l : List ScoredCompetitor) :
    (l.mergeSort scoreDescBool).Pairwise (fun a b => b.score ≤ a.score) := by
  have h := @List.sorted_mergeSort ScoredCompetitor scoreDescBool
    scoreDescBool_trans scoreDescBool_total l
  exact h.imp (fun hab => by simpa [scoreDescBool] using hab)

theorem mergeSort_ne_nil (l : List ScoredCompetitor) (h : l ≠ []) :
    l.mergeSort scoreDescBool ≠ [] := by
  intro h0
  apply h
  have := (List.mergeSort_perm l scoreDescBool).length_eq
  rw [h0] at this
  exact List.eq_nil_of_length_eq_zero this.symm

/-- C1: for a non-empty input and `min_score = 6` the validator returns a
non-empty list, sorted descending by score; when every competitor scores
below the threshold, the result is exactly the top 5 competitors by
descending score (the fallback), not the empty list. -/
theorem validate_nonempty_sorted (l : List ScoredCompetitor) (hne : l ≠ []) :
    validate_competitors l 6 ≠ [] ∧
    (validate_competitors l 6).Pairwise (fun a b => b.score ≤ a.score) ∧
    ((∀ c ∈ l, c.score < 6) →
      validate_competitors l 6 = (l.mergeSort scoreDescBool).take 5) := by
  unfold validate_competitors
  by_cases hkept : (l.filter (fun c => decide (6 ≤ c.score))).isEmpty
  · rw [if_pos hkept]
    refine ⟨?_, ?_, fun _ => rfl⟩
    · apply List.ne_nil_of_length_pos
      rw [List.length_take]
      have hlen : 0 < (l.mergeSort scoreDescBool).length := by
        rw [(List.mergeSort_perm l scoreDescBool).length_eq]
        exact List.length_pos.mpr hne
      omega
    · exact (sorted_desc_mergeSort l).sublist (List.take_sublist _ _)
  · rw [if_neg hkept]
    refine ⟨?_, sorted_desc_mergeSort _, fun hall => ?_⟩
    · apply mergeSort_ne_nil
      intro h0
      rw [h0] at hkept
      exact hkept rfl
    · exfalso
      apply hkept
      rw [List.isEmpty_iff, List.filter_eq_nil_iff]
      intro c hc
      simpa using Int.not_le.mpr (hall c hc)

theorem validate_nonempty_sorted_witness :
    validate_competitors
        [⟨"a", [], 2, ""⟩, ⟨"b", [], 3, ""⟩, ⟨"c", [], 4, ""⟩] 6 ≠ [] ∧
    (validate_competitors
        [⟨"a", [], 2, ""⟩, ⟨"b", [], 3, ""⟩, ⟨"c", [], 4, ""⟩] 6).Pairwise
      (fun a b => b.score ≤ a.score) ∧
    validate_competitors
        [⟨"a", [], 2, ""⟩, ⟨"b", [], 3, ""⟩, ⟨"c", [], 4, ""⟩] 6
      = ([(⟨"a", [], 2, ""⟩ : ScoredCompetitor), ⟨"b", [], 3, ""⟩,
          ⟨"c", [], 4, ""⟩].mergeSort scoreDescBool).take 5 := by
  have h := validate_nonempty_sorted
    [⟨"a", [], 2, ""⟩, ⟨"b", [], 3, ""⟩, ⟨"c", [], 4, ""⟩] (by decide)
  exact ⟨h.1, h.2.1, h.2.2 (by decide)⟩

/-! ## Enrichment lemmas and claim theorems (C5, C10) -/

theorem enrichOne_name (oracle : Candidate String → Except Unit (List String))
    (comp : Candidate String) : (enrichOne oracle comp).name = comp.name := by
  unfold enrichOne
  cases oracle comp <;> rfl

/-- The supplement loop never fires: every input name is processed. -/
theorem enrich_eq_map (oracle : Candidate String → Except Unit (List String))
    (competitors : List (Candidate String)) :
    enrich_competitors oracle competitors = competitors.map (enrichOne oracle) := by
  unfold enrich_competitors
  by_cases hemp : competitors.isEmpty
  · rw [if_pos hemp]
    rw [List.isEmpty_iff.mp hemp]
    rfl
  · rw [if_neg hemp]
    have hfilter : competitors.filter
        (fun c => !(((competitors.map (enrichOne oracle)).map Candidate.name).contains
          c.name)) = [] := by
      rw [List.filter_eq_nil_iff]
      intro c hc
      simp
      exact ⟨c, hc, enrichOne_name oracle c⟩
    show competitors.map (enrichOne oracle) ++
        competitors.filter
          (fun c => !(((competitors.map (enrichOne oracle)).map Candidate.name).contains
            c.name))
      = competitors.map (enrichOne oracle)
    rw [hfilter, List.append_nil]

/-- C5: enrichment never drops a competitor.  Every input competitor is
present by name in the output, keeps all of its original features, and a
competitor whose extraction future raised is emitted literally unchanged. -/
theorem enrich_preserves_competitors
    (oracle : Candidate String → Except Unit (List String))
    (comps : List (Candidate String)) (c : Candidate String) (hc : c ∈ comps) :
    ∃ e ∈ enrich_competitors oracle comps, e.name = c.name ∧
      (∀ f ∈ c.features, f ∈ e.features) ∧
      (oracle c = .error () → e = c) := by
  rw [enrich_eq_map]
  refine ⟨enrichOne oracle c, List.mem_map_of_mem _ hc, enrichOne_name oracle c, ?_, ?_⟩
  · intro f hf
    unfold enrichOne
    cases h : oracle c
    · exact hf
    · show f ∈ dedupFirst (c.features ++ _)
      exact (mem_dedupFirst _ _).mpr (List.mem_append.mpr (Or.inl hf))
  · intro herr
    unfold enrichOne
    rw [herr]

theorem enrich_preserves_competitors_witness :
    ∃ e ∈ enrich_competitors
        (fun c => if c.name = "B" then .error () else .ok ["f2"])
        [⟨"A", ["f1"], none, none⟩, ⟨"B", [], none, none⟩],
      e.name = "B" ∧ (∀ f ∈ (["*"].tail : List String), f ∈ e.features) ∧
      ((if "B" = "B" then (.error () : Except Unit (List String)) else .ok ["f2"])
          = .error () →
        e = ⟨"B", [], none, none⟩) := by
  have h := enrich_preserves_competitors
    (fun c => if c.name = "B" then .error () else .ok ["f2"])
    [⟨"A", ["f1"], none, none⟩, ⟨"B", [], none, none⟩]
    ⟨"B", [], none, none⟩ (by decide)
  simpa using h

/-- C10: for every competitor whose extraction future completed, the output
record is rebuilt with exactly a name and a feature list — any further field
of the input record (score, reason) is absent; and every output record
either carries no score/reason or is an unchanged input whose future
raised. -/
theorem enrich_success_rebuilds_record
    (oracle : Candidate String → Except Unit (List String))
    (comps : List (Candidate String)) (c : Candidate String) (fs : List String)
    (hc : c ∈ comps) (hok : oracle c = .ok fs) :
    (⟨c.name, dedupFirst (c.features ++ fs), none, none⟩ : Candidate String)
        ∈ enrich_competitors oracle comps ∧
    ∀ e ∈ enrich_competitors oracle comps,
      (e.score = none ∧ e.reason = none) ∨ (e ∈ comps ∧ oracle e = .error ()) := by
  constructor
  · rw [enrich_eq_map]
    have hval : enrichOne oracle c
        = ⟨c.name, dedupFirst (c.features ++ fs), none, none⟩ := by
      unfold enrichOne
      rw [hok]
    rw [← hval]
    exact List.mem_map_of_mem _ hc
  · intro e he
    rw [enrich_eq_map] at he
    obtain ⟨c', hc', hce⟩ := List.mem_map.mp he
    unfold enrichOne at hce
    cases h : oracle c'
    · rename_i u
      rw [h] at hce
      rw [← hce]
      cases u
      exact Or.inr ⟨hc', h⟩
    · rw [h] at hce
      rw [← hce]
      exact Or.inl ⟨rfl, rfl⟩

theorem enrich_success_rebuilds_record_witness :
    (⟨"A", dedupFirst (["f1"] ++ ["f2"]), none, none⟩ : Candidate String)
        ∈ enrich_competitors (fun _ => .ok ["f2"]) [⟨"A", ["f1"], some 7, some "r"⟩] ∧
    ∀ e ∈ enrich_competitors (fun _ => .ok ["f2"]) [⟨"A", ["f1"], some 7, some "r"⟩],
      (e.score = none ∧ e.reason = none) ∨
        (e ∈ [(⟨"A", ["f1"], some 7, some "r"⟩ : Candidate String)] ∧
          (fun (_ : Candidate String) => (.ok ["f2"] : Except Unit (List String))) e
            = .error ()) :=
  enrich_success_rebuilds_record (fun _ => .ok ["f2"])
    [⟨"A", ["f1"], some 7, some "r"⟩] ⟨"A", ["f1"], some 7, some "r"⟩ ["f2"]
    (by decide) rfl

/-! ## Claim theorems: query generation (C8) -/

/-- C8: the query generator is total with a guaranteed fallback — with both
domain and features empty/None it returns the empty list; with domain "D"
supplied and the LLM call raising, it returns the non-empty fallback list
whose query string is built from the product name. -/
theorem generate_queries_fallback (domain features : Option String) (pn : String)
    (llm : Except Unit String) (hd : pyTruthyOptStr domain = false)
    (hf : pyTruthyOptStr features = false) :
    generate_search_queries domain features pn llm = Json.arr [] ∧
    generate_search_queries (some "D") none "X" (.error ()) =
      Json.arr [Json.obj [("type", Json.str "domain"), ("name", Json.str "D"),
        ("query", Json.str "D X 竞品")]] ∧
    "X".data <:+: "D X 竞品".data := by
  refine ⟨?_, ?_, ⟨"D ".data, " 竞品".data, by decide⟩⟩
  · unfold generate_search_queries
    rw [hd, hf]
    rfl
  · rfl

theorem generate_queries_fallback_witness :
    generate_search_queries none none "X" (.ok "resp") = Json.arr [] ∧
    generate_search_queries (some "D") none "X" (.error ()) =
      Json.arr [Json.obj [("type", Json.str "domain"), ("name", Json.str "D"),
        ("query", Json.str "D X 竞品")]] ∧
    "X".data <:+: "D X 竞品".data :=
  generate_queries_fallback none none "X" (.ok "resp") rfl rfl

/-! ## Claim theorems: search-failure isolation (C7) -/

theorem search_single_query_failing (q : Json) (mr : Nat) (hq : wfQuery q) :
    ∃ r, search_single_query (fun _ _ => .error ()) q mr = .ok r ∧
      r.search_results = [] := by
  obtain ⟨⟨t, ht⟩, ⟨n, hn⟩, ⟨s, hs⟩⟩ := hq
  refine ⟨⟨t, n, s, []⟩, ?_, rfl⟩
  unfold search_single_query
  rw [hs, ht, hn]
  rfl

theorem searchLoop_failing (mr : Nat) (qs : List Json) (hwf : ∀ q ∈ qs, wfQuery q) :
    ∃ rs, searchLoop (fun _ _ => .error ()) mr qs = .ok rs ∧
      ∀ r ∈ rs, r.search_results = [] := by
  induction qs with
  | nil => exact ⟨[], rfl, by simp⟩
  | cons q rest ih =>
    obtain ⟨r, hr, hre⟩ := search_single_query_failing q mr (hwf q (List.mem_cons_self _ _))
    obtain ⟨rs, hrs, hall⟩ := ih (fun q' h => hwf q' (List.mem_cons_of_mem _ h))
    refine ⟨r :: rs, ?_, ?_⟩
    · unfold searchLoop
      rw [hr, hrs]
      rfl
    · intro r' hmem
      rcases List.mem_cons.mp hmem with rfl | hmem
      · exact hre
      · exact hall r' hmem

theorem flatten_of_all_nil (rs : List QueryResult)
    (h : ∀ r ∈ rs, r.search_results = []) :
    (rs.map QueryResult.search_results).flatten = [] := by
  induction rs with
  | nil => rfl
  | cons r rest ih =>
    simp only [List.map_cons, List.flatten_cons, h r (List.mem_cons_self _ _)]
    rw [List.nil_append]
    exact ih (fun r' hm => h r' (List.mem_cons_of_mem _ hm))

/-- C7: with a search provider that raises on every call, `search_all_parallel`
returns (without raising) one stub per query, each contributing zero results
— the flattened result list is `[]` — and the whole `run` still returns a
result object with `total_count = 0`. -/
theorem search_failure_isolated
    (qs : List Json) (mr : Nat) (hwf : ∀ q ∈ qs, wfQuery q)
    (domain features : Option String) (pn : String)
    (llmQ llmE : Except Unit String)
    (webReader : List String → List FetchedContent)
    (hgen : wfQueries (generate_search_queries domain features pn llmQ)) :
    (∃ rs, search_all_parallel (fun _ _ => .error ()) qs mr = .ok rs ∧
      (∀ r ∈ rs, r.search_results = []) ∧
      (rs.map QueryResult.search_results).flatten = []) ∧
    (∃ res, CompetitorAnalysisAgent.run domain features pn llmQ (fun _ _ => .error ())
        webReader llmE mr = .ok res ∧ res.total_count = 0) := by
  constructor
  · unfold search_all_parallel
    by_cases hq : qs.isEmpty
    · rw [if_pos hq]
      exact ⟨[], rfl, by simp, rfl⟩
    · rw [if_neg hq]
      obtain ⟨rs, hrs, hall⟩ := searchLoop_failing mr qs hwf
      exact ⟨rs, hrs, hall, flatten_of_all_nil rs hall⟩
  · unfold CompetitorAnalysisAgent.run
    unfold wfQueries at hgen
    cases hg : generate_search_queries domain features pn llmQ with
    | arr l =>
      rw [hg] at hgen
      dsimp only
      by_cases hl : l.isEmpty
      · rw [List.isEmpty_iff.mp hl]
        exact ⟨⟨domain, features, pn, [], [], 0⟩, rfl, rfl⟩
      · have htr : pyTruthy (Json.arr l) = true := by
          simp [pyTruthy, hl]
        rw [htr]
        obtain ⟨rs, hrs, hall⟩ := searchLoop_failing mr l hgen
        have hflat := flatten_of_all_nil rs hall
        have hsall : search_all_parallel (fun _ _ => .error ()) l mr = .ok rs := by
          unfold search_all_parallel
          rw [if_neg hl]
          exact hrs
        refine ⟨⟨domain, features, pn, rs.map QueryResult.query, [], 0⟩, ?_, rfl⟩
        show (do
          let search_results ← search_all_parallel (fun _ _ => .error ()) l mr
          let queries := search_results.map QueryResult.query
          let all_search_results :=
            (search_results.map QueryResult.search_results).flatten
          let web_contents :=
            if !all_search_results.isEmpty then
              webReader ((dedupFirst (all_search_results.map SearchResult.url)).take 5)
            else []
          let extracted := extract_competitor_info all_search_results web_contents llmE
          let all_competitors := merge_and_deduplicate_competitors extracted
          return ⟨domain, features, pn, queries, all_competitors,
            all_competitors.length⟩) = Except.ok
          (⟨domain, features, pn, rs.map QueryResult.query, [], 0⟩ : RunResult)
        rw [hsall]
        show Except.ok (⟨domain, features, pn, rs.map QueryResult.query,
          merge_and_deduplicate_competitors (extract_competitor_info
            ((rs.map QueryResult.search_results).flatten) _ llmE),
          (merge_and_deduplicate_competitors (extract_competitor_info
            ((rs.map QueryResult.search_results).flatten) _ llmE)).length⟩ : RunResult)
          = _
        rw [hflat]
        rfl
    | null =>
      exact ⟨⟨domain, features, pn, [], [], 0⟩, rfl, rfl⟩
    | bool b =>
      rw [hg] at hgen
      dsimp only
      rw [hgen]
      exact ⟨⟨domain, features, pn, [], [], 0⟩, rfl, rfl⟩
    | num raw =>
      rw [hg] at hgen
      dsimp only
      rw [hgen]
      exact ⟨⟨domain, features, pn, [], [], 0⟩, rfl, rfl⟩
    | str s =>
      rw [hg] at hgen
      dsimp only
      rw [hgen]
      exact ⟨⟨domain, features, pn, [], [], 0⟩, rfl, rfl⟩
    | obj kvs =>
      rw [hg] at hgen
      dsimp only
      rw [hgen]
      exact ⟨⟨domain, features, pn, [], [], 0⟩, rfl, rfl⟩

theorem search_failure_isolated_witness :
    (∃ rs, search_all_parallel (fun _ _ => .error ())
        [Json.obj [("type", Json.str "domain"), ("name", Json.str "D"),
          ("query", Json.str "D X 竞品")]] 5 = .ok rs ∧
      (∀ r ∈ rs, r.search_results = []) ∧
      (rs.map QueryResult.search_results).flatten = []) ∧
    (∃ res, CompetitorAnalysisAgent.run (some "D") none "X" (.error ())
        (fun _ _ => .error ()) (fun _ => []) (.error ()) 5 = .ok res ∧
      res.total_count = 0) := by
  have hwf : ∀ q ∈ [Json.obj [("type", Json.str "domain"), ("name", Json.str "D"),
      ("query", Json.str "D X 竞品")]], wfQuery q := by
    intro q hq
    rw [List.mem_singleton.mp hq]
    exact ⟨⟨Json.str "domain", rfl⟩, ⟨Json.str "D", rfl⟩, ⟨Json.str "D X 竞品", rfl⟩⟩
  have hgen : wfQueries (generate_search_queries (some "D") none "X" (.error ())) := by
    show ∀ q ∈ [Json.obj [("type", Json.str "domain"), ("name", Json.str "D"),
      ("query", Json.str "D X 竞品")]], wfQuery q
    exact hwf
  exact search_failure_isolated
    [Json.obj [("type", Json.str "domain"), ("name", Json.str "D"),
      ("query", Json.str "D X 竞品")]] 5 hwf (some "D") none "X"
    (.error ()) (.error ()) (fun _ => []) hgen

/-! ## Claim theorems: extractor JSON repair (C6) -/

theorem extractStep_entries (entries : List (String × List Json)) :
    extractStep (some (Json.obj [("competitors", Json.arr (entries.map entryJson))]))
      = .ok (entries.map entryJson) := rfl

theorem normalizeComps_entryJson (entries : List (String × List Json)) :
    normalizeComps (entries.map entryJson)
      = entries.map (fun e => Candidate.mk e.1 e.2 none none) := by
  induction entries with
  | nil => rfl
  | cons e es ih =>
    show Candidate.mk e.1 e.2 none none :: normalizeComps (es.map entryJson) = _
    rw [ih]
    rfl

/-- C6 (counterexample): the claim says a fenced ```json block containing
valid JSON of the competitors shape is recovered *exactly*.  But the cleanup
substitution `re.sub(r'\"\s*\"', '", "', …)` also rewrites the two adjacent
quotes of an empty string: a valid block whose feature list is `[""]` comes
back as `[", "]`, not `[""]`. -/
theorem extract_exact_recovery_counterexample :
    extract_competitor_info [⟨"t", "u", "s"⟩] []
        (.ok "```json\n\x7b\"competitors\": [\x7b\"name\": \"Acme\", \"features\": [\"\"]\x7d]\x7d\n```")
      = [⟨"Acme", [Json.str ", "], none, none⟩] ∧
    (⟨"Acme", [Json.str ", "], none, none⟩ : Candidate Json)
      ≠ ⟨"Acme", [Json.str ""], none, none⟩ := by
  refine ⟨rfl, ?_⟩
  intro h
  have h2 : [Json.str ", "] = ([Json.str ""] : List Json) := congrArg Candidate.features h
  have h3 : Json.str ", " = Json.str "" := congrArg (fun l => l.headD Json.null) h2
  injection h3 with h4
  exact absurd h4 (by decide)

/-- C6 (amended): under the proviso that the cleanup substitutions
(`re.sub(r'\x7d\s*\x7b', ...)`, `re.sub(r'\"\s*\"', ...)`, the full-width
colon replacement and the trailing-`...` strip) leave the fenced content
unchanged and that content starts with `\x7b`, a fenced block that parses
to the expected competitors shape with a non-empty list is recovered
exactly as name/feature records (score and reason absent); a response
truncated mid-string is repaired to the complete prefix of entries; and
an unrecoverable response yields `[]` rather than an exception. -/
theorem extract_repair_behavior
    (response : String) (s6 : List Char) (entries : List (String × List Json))
    (cd : List SearchResult) (wc : List FetchedContent)
    (hcd : cd ≠ [])
    (hfence : fencedBlockRegex (stripChars response.data) = some s6)
    (hhead : findSub s6 "\x7b".data = some 0)
    (hb : subBraceComma s6 = s6)
    (hq2 : subQuoteComma s6 = s6)
    (hcolon : replaceFullColon s6 = s6)
    (hdots : "...".data.isSuffixOf s6 = false)
    (hparse : jsonLoads s6
      = some (Json.obj [("competitors", Json.arr (entries.map entryJson))]))
    (hne : entries ≠ []) :
    extract_competitor_info cd wc (.ok response)
        = entries.map (fun e => Candidate.mk e.1 e.2 none none) ∧
    extract_competitor_info cd wc
        (.ok "\x7b\"competitors\": [\x7b\"name\": \"A\", \"features\": [\"f1\"]\x7d, \x7b\"name\": \"B\", \"features\": [\"f2")
      = [⟨"A", [Json.str "f1"], none, none⟩] ∧
    extract_competitor_info cd wc (.ok "hello world !!!") = [] := by
  have hcd2 : ¬ cd.isEmpty = true := by
    cases cd with
    | nil => exact absurd rfl hcd
    | cons a t => exact fun h => Bool.false_ne_true h
  have hfound : (findSub (stripChars response.data) "```".data).isSome = true := by
    unfold fencedBlockRegex at hfence
    cases hf0 : findSub (stripChars response.data) "```".data with
    | none =>
      rw [hf0] at hfence
      exact Option.noConfusion hfence
    | some i => rfl
  have h1 : fenceStrip (stripChars response.data) = s6 := by
    unfold fenceStrip
    rw [if_pos hfound, hfence]
  have h2 : cutToBrace s6 = s6 := by
    unfold cutToBrace
    rw [hhead]
    exact List.drop_zero s6
  have hclean : extractCleaned response = s6 := by
    unfold extractCleaned
    rw [h1, h2, hb, hq2, hcolon]
    unfold dropDots
    rw [if_neg (by rw [hdots]; exact Bool.false_ne_true)]
  have hmap : (entries.map entryJson).isEmpty = false := by
    cases entries with
    | nil => exact absurd rfl hne
    | cons e es => rfl
  refine ⟨?_, ?_, ?_⟩
  · unfold extract_competitor_info
    rw [if_neg hcd2]
    show extractFromResponse response = _
    unfold extractFromResponse
    rw [hclean]
    have hpr : parseOrRepair s6
        = some (Json.obj [("competitors", Json.arr (entries.map entryJson))]) := by
      unfold parseOrRepair
      rw [hparse]
    rw [hpr, extractStep_entries]
    show normalizeComps
        (if (entries.map entryJson).isEmpty then salvageBlocks s6
         else entries.map entryJson) = _
    rw [if_neg (by rw [hmap]; exact Bool.false_ne_true)]
    exact normalizeComps_entryJson entries
  · unfold extract_competitor_info
    rw [if_neg hcd2]
    rfl
  · unfold extract_competitor_info
    rw [if_neg hcd2]
    rfl

theorem extract_repair_behavior_witness :
    extract_competitor_info [⟨"t", "u", "s"⟩] []
        (.ok "```json\n\x7b\"competitors\": [\x7b\"name\": \"Widget\", \"features\": [\"fast\"]\x7d]\x7d\n```")
      = [⟨"Widget", [Json.str "fast"], none, none⟩] := by
  have h := extract_repair_behavior
    "```json\n\x7b\"competitors\": [\x7b\"name\": \"Widget\", \"features\": [\"fast\"]\x7d]\x7d\n```"
    ("\x7b\"competitors\": [\x7b\"name\": \"Widget\", \"features\": [\"fast\"]\x7d]\x7d").data
    [("Widget", [Json.str "fast"])]
    [⟨"t", "u", "s"⟩] []
    (List.cons_ne_nil _ _) rfl rfl rfl rfl rfl rfl rfl (List.cons_ne_nil _ _)
  exact h.1
